import Mathlib

/-!
Shallow embedding of the acquisition core of the `ecomm_crawler` repository
(`src/scraper_firefox.py`, `src/ui/main_window.py`,
`src/ui/components/scraper_thread.py`, `src/config/settings.py`) together
with theorems settling the testable properties stated in `spec.md`.

Machine floats of the Python source are modelled as exact rationals (`ℚ`);
all comparisons the theorems depend on are order comparisons that coincide
for the decimal price strings involved.  Selenium element handles are
modelled by the data the code reads off them; every fallible driver
interaction is modelled by an `Option`-valued outcome supplied by an
abstract environment, so that theorems quantify over all success/failure
patterns of the page.
-/

namespace EcommCrawler

/-! ### Python-style price parsing

`float(cleaned)` of the source is modelled by an exact decimal/scientific
literal parser into `ℚ`.  The syntactic analysis lives entirely in
`Char`/`ℕ`/`ℤ` (`pyFloatParts`) and the rational value is assembled by the
arithmetic-only `ratOfParts`, so concrete strings evaluate by kernel
reduction plus `norm_num`.  Inputs outside the decimal grammar (as well as
the `inf`/`nan`/underscore corners of Python's `float`) parse to `none`
and hence to the fallback value `0` used by both call sites. -/

/-- Numeric value of a list of ASCII digit characters (most significant first). -/
def digitsToNat (ds : List Char) : ℕ :=
  ds.foldl (fun a c => 10 * a + (c.toNat - 48)) 0

/-- Syntactic pieces of a parsed decimal/scientific literal: sign, the
mantissa digits read as an integer, the number of fractional digits, and
the exponent. -/
structure FloatParts where
  neg : Bool
  mant : ℕ
  fracLen : ℕ
  exp : ℤ
deriving DecidableEq, Repr

/-- Parse an unsigned decimal mantissa `digits[.digits]` (at least one digit
overall) into mantissa digits and fractional length. -/
def parseMantissa (cs : List Char) : Option (ℕ × ℕ) :=
  let ip := cs.takeWhile (fun c => c ≠ '.')
  let rest := cs.dropWhile (fun c => c ≠ '.')
  let fp : Option (List Char) := match rest with
    | [] => some []
    | _ :: fs => if fs.all Char.isDigit then some fs else none
  match fp with
  | none => none
  | some fs =>
      if ip.all Char.isDigit ∧ (ip ≠ [] ∨ fs ≠ []) then
        some (digitsToNat (ip ++ fs), fs.length)
      else none

/-- Parse an optional exponent suffix `[eE][+-]?digits`; yields the exponent
(`0` when absent) or `none` when malformed. -/
def parseExponent (cs : List Char) : Option ℤ :=
  match cs with
  | [] => some 0
  | e :: rest =>
      if e = 'e' ∨ e = 'E' then
        let p : ℤ × List Char := match rest with
          | '+' :: ds => (1, ds)
          | '-' :: ds => (-1, ds)
          | ds => (1, ds)
        if p.2 ≠ [] ∧ p.2.all Char.isDigit then some (p.1 * (digitsToNat p.2 : ℤ))
        else none
      else none

/-- Split a candidate float literal into its syntactic pieces; `none` when it
is not a decimal/scientific literal (Python's `float` would raise and the
call sites fall back to `0`). -/
def pyFloatParts (cs : List Char) : Option FloatParts :=
  let p : Bool × List Char := match cs with
    | '+' :: rest => (false, rest)
    | '-' :: rest => (true, rest)
    | _ => (false, cs)
  let m := p.2.takeWhile (fun c => ¬(c = 'e' ∨ c = 'E'))
  let rest := p.2.dropWhile (fun c => ¬(c = 'e' ∨ c = 'E'))
  match parseMantissa m, parseExponent rest with
  | some mf, some e => some ⟨p.1, mf.1, mf.2, e⟩
  | _, _ => none

/-- Exact rational value of parsed literal pieces. -/
def ratOfParts (p : FloatParts) : ℚ :=
  let mag : ℚ := (p.mant : ℚ) / (10 : ℚ) ^ p.fracLen
  let signed : ℚ := if p.neg then -mag else mag
  if 0 ≤ p.exp then signed * (10 : ℚ) ^ p.exp.toNat
  else signed / (10 : ℚ) ^ (-p.exp).toNat

/-- Value of Python `float(...)` on a cleaned string, with the `except`
fallback `0` used by both parsing call sites of the source. -/
def pyFloatVal (cs : List Char) : ℚ :=
  match pyFloatParts cs with
  | none => 0
  | some p => ratOfParts p

/-- Model of chained Python `str.replace(c, "")` calls: drop every occurrence
of the given characters. -/
def removeChars (bad : List Char) (cs : List Char) : List Char :=
  cs.filter (fun c => ¬ c ∈ bad)

/-- Python `str.strip()`: drop leading and trailing whitespace. -/
def pyStrip (cs : List Char) : List Char :=
  ((cs.dropWhile Char.isWhitespace).reverse.dropWhile Char.isWhitespace).reverse

/-- `MainWindow._parse_price` (src/ui/main_window.py:738-747): empty input is
`0`; otherwise `$`, `,`, `¥` are removed, the string is stripped and fed to
`float`, with `0` on a parse failure. -/
def parse_price (s : String) : ℚ :=
  if s = "" then 0
  else pyFloatVal (pyStrip (removeChars ['$', ',', '¥'] s.data))

/-! ### Final-price rule -/

/-- `PRICE_DISCOUNT` (src/config/settings.py:152). -/
def PRICE_DISCOUNT : ℚ := 0.95

/-- `MainWindow._calculate_final_price` (src/ui/main_window.py:749-773) with
the configured discount made an explicit parameter (the source reads it via
`getattr(config, 'PRICE_DISCOUNT', 0.95)`). -/
def calculate_final_price_with (discount : ℚ) (ali_rec_price amazon_min_price : String) : String :=
  let ali_price := parse_price ali_rec_price
  let amazon_price := parse_price amazon_min_price
  if ali_price ≤ 0 ∨ amazon_price ≤ 0 then ""
  else if ali_price < amazon_price * discount then ali_rec_price
  else if ali_price < amazon_price then ali_rec_price
  else ""

/-- `MainWindow._calculate_final_price` at the configured discount `0.95`. -/
def calculate_final_price (ali_rec_price amazon_min_price : String) : String :=
  calculate_final_price_with PRICE_DISCOUNT ali_rec_price amazon_min_price

/-- Modelled from the spec: the collapsed two-way form of the final-price
rule, which keeps the `<= 0` guard but only tests
`recommended < competitorMin` (spec §4.6 note / §9 open question). -/
def collapsed_final_price (ali_rec_price amazon_min_price : String) : String :=
  let ali_price := parse_price ali_rec_price
  let amazon_price := parse_price amazon_min_price
  if ali_price ≤ 0 ∨ amazon_price ≤ 0 then ""
  else if ali_price < amazon_price then ali_rec_price
  else ""

/-! ### Currency formatting and competitor price statistics -/

/-- Insert a thousands separator after every third character; the input is
the digit list in reverse (least significant first). -/
def chunk3Rev : List Char → List Char
  | d1 :: d2 :: d3 :: d4 :: rest => d1 :: d2 :: d3 :: ',' :: chunk3Rev (d4 :: rest)
  | l => l

/-- Decimal rendering of a natural number with `,` thousands grouping. -/
def commaFmt (n : ℕ) : String :=
  ⟨(chunk3Rev (Nat.repr n).data.reverse).reverse⟩

/-- Number part of Python's `f"{x:,.2f}"` on the exact rational `n / d`
(`d > 0`): two decimals, ties rounded to even cents, thousands grouping. -/
def moneyDigits (n : ℤ) (d : ℕ) : String :=
  let a := 100 * n.natAbs
  let f := a / d
  let r := a % d
  let cents := if 2 * r < d then f else if d < 2 * r then f + 1
    else if f % 2 = 0 then f else f + 1
  let frac := cents % 100
  let s := commaFmt (cents / 100) ++ "." ++ (if frac < 10 then "0" else "") ++ Nat.repr frac
  if n < 0 ∧ cents ≠ 0 then "-" ++ s else s

/-- Python `f"${x:,.2f}"` on an exact rational. -/
def formatCurrency (q : ℚ) : String :=
  "$" ++ moneyDigits q.num q.den

/-- A value of the competitor prices map: the source accepts both the new
format `{"price": ..., "url": ...}` and the old format (a bare price
string, whose url reads as `""`). -/
inductive PriceInfo where
  | newFmt (price url : String)
  | oldFmt (price : String)
deriving DecidableEq, Repr

/-- Price string of a map value (`price_info.get("price", "N/A")` /
the bare string). -/
def PriceInfo.priceStr : PriceInfo → String
  | .newFmt p _ => p
  | .oldFmt p => p

/-- Url of a map value (`price_info.get("url", "")` / `""`). -/
def PriceInfo.urlStr : PriceInfo → String
  | .newFmt _ u => u
  | .oldFmt _ => ""

/-- Result record of `calculate_amazon_price_stats`. -/
structure AmazonStats where
  amazon_avg_price : String
  amazon_min_price : String
  amazon_min_price_product : String
  amazon_min_price_product_url : String
  ali_express_rec_price : String
deriving DecidableEq, Repr

/-- Python `aliexpress_price or "N/A"`: the falsy empty string falls back. -/
def pyOrNA (s : String) : String := if s = "" then "N/A" else s

/-- The all-`"N/A"` result returned when the map is empty or no price
qualifies. -/
def naStats (aliexpress_price : String) : AmazonStats :=
  ⟨"N/A", "N/A", "N/A", "", pyOrNA aliexpress_price⟩

/-! ### Image-URL normalization

`clean_image_url` (src/scraper_firefox.py:111-125).  The three `re.sub`
calls are modelled exactly: each pattern is anchored at `$`, so a
substitution rewrites the leftmost position whose suffix matches the whole
pattern, where — as for Python's `$` without `re.M` — the match may also
end just before one trailing newline.  Matching is case-insensitive
(`re.IGNORECASE`, ASCII reading). -/

/-- ASCII lower-casing, the case-insensitivity model for the url patterns. -/
def lcChar (c : Char) : Char :=
  if 'A' ≤ c ∧ c ≤ 'Z' then Char.ofNat (c.toNat + 32) else c

/-- Strip a (lower-case) literal pattern case-insensitively from the front,
returning the remainder on success. -/
def stripCI (pat : List Char) (cs : List Char) : Option (List Char) :=
  if (cs.take pat.length).map lcChar = pat then some (cs.drop pat.length) else none

/-- First hit of an option-valued function over a list. -/
def firstSome {α β : Type} (f : α → Option β) : List α → Option β
  | [] => none
  | a :: rest => match f a with
    | some b => some b
    | none => firstSome f rest

/-- The image extensions of the url patterns: `jpg|jpeg|png|webp`. -/
def imgExts : List (List Char) :=
  [['j', 'p', 'g'], ['j', 'p', 'e', 'g'], ['p', 'n', 'g'], ['w', 'e', 'b', 'p']]

/-- Require at least one digit and drop the maximal digit run (`\d+`
followed by a non-digit continuation). -/
def dropDigits1 (cs : List Char) : Option (List Char) :=
  let d := cs.takeWhile Char.isDigit
  if d.isEmpty then none else some (cs.drop d.length)

/-- End-of-match check for `(_\.avif)?$`: the remainder must be empty or a
sole trailing newline, possibly after a case-insensitive `_.avif`; returns
the text left unmatched (kept by the substitution). -/
def endTail (rr : List Char) : Option (List Char) :=
  if rr = [] ∨ rr = ['\n'] then some rr
  else match stripCI ['_', '.', 'a', 'v', 'i', 'f'] rr with
    | some rr2 => if rr2 = [] ∨ rr2 = ['\n'] then some rr2 else none
    | none => none

/-- Match `_\d+x\d+[^.]*\.(jpg|jpeg|png|webp)(_\.avif)?$` against the whole
suffix `s`; on success returns the replacement for the suffix (here: the
text the `$` left over, since the whole match is deleted). -/
def match1Tail (s : List Char) : Option (List Char) :=
  match s with
  | '_' :: r1 =>
      match dropDigits1 r1 with
      | none => none
      | some r2 =>
          match r2 with
          | [] => none
          | x :: r3 =>
              if lcChar x = 'x' then
                match dropDigits1 r3 with
                | none => none
                | some r4 =>
                    let m := r4.takeWhile (fun c => c ≠ '.')
                    match r4.drop m.length with
                    | '.' :: tl =>
                        firstSome (fun ext =>
                          match stripCI ext tl with
                          | some rr => endTail rr
                          | none => none) imgExts
                    | _ => none
              else none
  | _ => none

/-- Match `_main\.(jpg|jpeg|png|webp)$` (replacement `.\1`, preserving the
extension's original spelling) against the whole suffix. -/
def match2Tail (s : List Char) : Option (List Char) :=
  match stripCI ['_', 'm', 'a', 'i', 'n', '.'] s with
  | none => none
  | some tl =>
      firstSome (fun ext =>
        match stripCI ext tl with
        | some rr =>
            if rr = [] ∨ rr = ['\n'] then some ('.' :: (tl.take ext.length ++ rr))
            else none
        | none => none) imgExts

/-- Match `_profile\.(jpg|jpeg|png|webp)$` (replacement `.\1`) against the
whole suffix. -/
def match3Tail (s : List Char) : Option (List Char) :=
  match stripCI ['_', 'p', 'r', 'o', 'f', 'i', 'l', 'e', '.'] s with
  | none => none
  | some tl =>
      firstSome (fun ext =>
        match stripCI ext tl with
        | some rr =>
            if rr = [] ∨ rr = ['\n'] then some ('.' :: (tl.take ext.length ++ rr))
            else none
        | none => none) imgExts

/-- `re.sub` for an `$`-anchored pattern: rewrite the leftmost position
whose suffix matches (the matcher returns the rewritten suffix), else
return the text unchanged. -/
def subLeftmost (f : List Char → Option (List Char)) : List Char → List Char
  | [] => match f [] with
    | some r => r
    | none => []
  | c :: rest => match f (c :: rest) with
    | some r => r
    | none => c :: subLeftmost f rest

/-- `clean_image_url` (src/scraper_firefox.py:111-125): falsy input maps to
`None`; otherwise drop the query string, apply the three suffix
substitutions, and prefix `https:` onto protocol-relative urls. -/
def clean_image_url (url : String) : Option String :=
  if url = "" then none
  else
    let base := url.data.takeWhile (fun c => c ≠ '?')
    let b1 := subLeftmost match1Tail base
    let b2 := subLeftmost match2Tail b1
    let b3 := subLeftmost match3Tail b2
    let b4 := if b3.take 2 = ['/', '/'] then "https:".data ++ b3 else b3
    some ⟨b4⟩

/-- No substitution applies to this text any more: the condition under
which normalization has reached a fixpoint. -/
def suffixStable (cs : List Char) : Prop :=
  subLeftmost match1Tail cs = cs ∧ subLeftmost match2Tail cs = cs ∧
    subLeftmost match3Tail cs = cs

instance (cs : List Char) : Decidable (suffixStable cs) := by
  unfold suffixStable
  infer_instance

/-! ### Python float semantics and competitor price statistics

The statistics of `calculate_amazon_price_stats` are sensitive to the full
value domain of Python's `float(...)`: `float("inf")` and overflowing
literals such as `"1e400"` yield `inf`, which compares `> 0` (so the quote
qualifies) but is never `< float('inf')` (so the running-minimum sentinel
is never beaten).  `PyFloat` models that domain: exact rationals for
finite values, plus `inf`, `-inf` and `nan` with IEEE comparison
semantics.  Literal parsing follows Python's grammar, including
single underscores between digits (PEP 515), the case-insensitive
`inf`/`infinity`/`nan` forms, overflow to `inf` at magnitude
`2^1024 - 2^970` and underflow to `0.0` at magnitude `2^-1075`;
in-range finite values are kept exact. -/

/-- A Python float value: an exact rational (in-range finite values are
not rounded to binary), or one of the non-finite values. -/
inductive PyFloat where
  | finite (q : ℚ)
  | inf
  | ninf
  | nan
deriving DecidableEq, Repr

/-- IEEE `<` on Python floats: `nan` compares false against everything,
`inf` is above every finite value and itself, `-inf` below. -/
def PyFloat.ltb : PyFloat → PyFloat → Bool
  | .finite a, .finite b => decide (a < b)
  | .finite _, .inf => true
  | .finite _, .ninf => false
  | .finite _, .nan => false
  | .inf, _ => false
  | .ninf, .finite _ => true
  | .ninf, .inf => true
  | .ninf, .ninf => false
  | .ninf, .nan => false
  | .nan, _ => false

/-- The `price_float > 0` test of the source: true for positive finite
values and `inf`, false for `0`, negatives, `-inf` and `nan`. -/
def PyFloat.isPos (x : PyFloat) : Bool := PyFloat.ltb (.finite 0) x

/-- IEEE addition on the modelled domain (finite sums kept exact). -/
def PyFloat.add : PyFloat → PyFloat → PyFloat
  | .nan, _ => .nan
  | _, .nan => .nan
  | .inf, .ninf => .nan
  | .ninf, .inf => .nan
  | .inf, _ => .inf
  | _, .inf => .inf
  | .ninf, _ => .ninf
  | _, .ninf => .ninf
  | .finite a, .finite b => .finite (a + b)

/-- Division by a (positive) count, as in the average computation. -/
def PyFloat.divNat (x : PyFloat) (n : ℕ) : PyFloat :=
  match x with
  | .finite a => .finite (a / n)
  | .inf => .inf
  | .ninf => .ninf
  | .nan => .nan

/-- Python `sum(...)` over a list of floats (starts from `0`). -/
def PyFloat.sumList (l : List PyFloat) : PyFloat :=
  l.foldl PyFloat.add (.finite 0)

/-- Order embedding of the domain the statistics fold ranges over —
strictly positive values, i.e. positive finite rationals and `inf` — into
`WithTop ℚ`.  `-inf` and `nan` never pass the `isPos` filter; the
catch-all maps them to `⊤` and every lemma using `toE` carries an `isPos`
hypothesis. -/
def PyFloat.toE : PyFloat → WithTop ℚ
  | .finite q => (q : WithTop ℚ)
  | _ => ⊤

/-- A maximal digit run in which single underscores may separate digits
(PEP 515); returns the digits (underscores removed) and the remainder. -/
def digitTail : List Char → List Char × List Char
  | '_' :: c :: rest =>
      if c.isDigit then
        let p := digitTail rest
        (c :: p.1, p.2)
      else ([], '_' :: c :: rest)
  | c :: rest =>
      if c.isDigit then
        let p := digitTail rest
        (c :: p.1, p.2)
      else ([], c :: rest)
  | [] => ([], [])

/-- A digit group: at least one leading digit, then `digitTail`. -/
def digitGroup (cs : List Char) : Option (List Char × List Char) :=
  match cs with
  | c :: rest =>
      if c.isDigit then
        let p := digitTail rest
        some (c :: p.1, p.2)
      else none
  | [] => none

/-- Python's float mantissa `digits[.digits]` with underscore groups, at
least one digit overall, nothing left over; yields mantissa digits and
fractional length. -/
def parseMantissaU (cs : List Char) : Option (ℕ × ℕ) :=
  match digitGroup cs with
  | some (ip, rest1) =>
      match rest1 with
      | [] => some (digitsToNat ip, 0)
      | '.' :: rest2 =>
          match rest2 with
          | [] => some (digitsToNat ip, 0)
          | _ =>
              match digitGroup rest2 with
              | some (fp, []) => some (digitsToNat (ip ++ fp), fp.length)
              | _ => none
      | _ => none
  | none =>
      match cs with
      | '.' :: rest2 =>
          match digitGroup rest2 with
          | some (fp, []) => some (digitsToNat fp, fp.length)
          | _ => none
      | _ => none

/-- Python's float exponent `[eE][+-]?digits` with underscore groups
(`0` when absent); `none` when malformed. -/
def parseExponentU (cs : List Char) : Option ℤ :=
  match cs with
  | [] => some 0
  | e :: rest =>
      if e = 'e' ∨ e = 'E' then
        let p : ℤ × List Char := match rest with
          | '+' :: ds => (1, ds)
          | '-' :: ds => (-1, ds)
          | ds => (1, ds)
        match digitGroup p.2 with
        | some (ds, []) => some (p.1 * (digitsToNat ds : ℤ))
        | _ => none
      else none

/-- A syntactically valid Python float literal: a signed decimal number,
a signed infinity, or `nan`. -/
inductive PyLiteral where
  | num (p : FloatParts)
  | inf (neg : Bool)
  | nan
deriving DecidableEq, Repr

/-- Full syntactic analysis of Python `float(...)`: optional sign, then
case-insensitive `inf`/`infinity`/`nan` or a decimal/scientific literal
with underscore groups; `none` when `float` would raise. -/
def pyFloatPartsF (cs : List Char) : Option PyLiteral :=
  let s : Bool × List Char := match cs with
    | '+' :: rest => (false, rest)
    | '-' :: rest => (true, rest)
    | _ => (false, cs)
  if s.2.map lcChar = ['i', 'n', 'f'] ∨
      s.2.map lcChar = ['i', 'n', 'f', 'i', 'n', 'i', 't', 'y'] then
    some (.inf s.1)
  else if s.2.map lcChar = ['n', 'a', 'n'] then some .nan
  else
    let m := s.2.takeWhile (fun c => ¬(c = 'e' ∨ c = 'E'))
    let rest := s.2.dropWhile (fun c => ¬(c = 'e' ∨ c = 'E'))
    match parseMantissaU m, parseExponentU rest with
    | some mf, some e => some (.num ⟨s.1, mf.1, mf.2, e⟩)
    | _, _ => none

/-- The magnitude `mant / 10^fracLen * 10^exp` rounds to `inf` as a
double: at or above `2^1024 - 2^970` (the round-to-nearest-even boundary
past the largest finite double).  Stated at the integer level so it is
kernel-decidable. -/
def overflowsF (mant : ℕ) (fracLen : ℕ) (exp : ℤ) : Bool :=
  let e : ℤ := exp - fracLen
  if 0 ≤ e then decide (2 ^ 970 * (2 ^ 54 - 1) ≤ mant * 10 ^ e.toNat)
  else decide (2 ^ 970 * (2 ^ 54 - 1) * 10 ^ (-e).toNat ≤ mant)

/-- The magnitude rounds to `0.0` as a double: at or below `2^-1075` (half
the smallest subnormal; the tie rounds to the even `0`). -/
def underflowsF (mant : ℕ) (fracLen : ℕ) (exp : ℤ) : Bool :=
  let e : ℤ := exp - fracLen
  if 0 ≤ e then decide (mant * 10 ^ e.toNat * 2 ^ 1075 ≤ 1)
  else decide (mant * 2 ^ 1075 ≤ 10 ^ (-e).toNat)

/-- Value of Python `float(...)` on a cleaned string as a `PyFloat`, with
the `except` fallback `0` of `parse_price_to_float`; overflowing decimal
literals saturate to `±inf` and underflowing ones to `0.0`. -/
def pyFloatValF (cs : List Char) : PyFloat :=
  match pyFloatPartsF cs with
  | none => .finite 0
  | some .nan => .nan
  | some (.inf neg) => if neg then .ninf else .inf
  | some (.num p) =>
      if overflowsF p.mant p.fracLen p.exp then (if p.neg then .ninf else .inf)
      else if underflowsF p.mant p.fracLen p.exp then .finite 0
      else .finite (ratOfParts p)

/-- `parse_price_to_float` (src/scraper_firefox.py:155-163): empty or
`"N/A"` input is `0.0`; otherwise `$` and `,` are removed, the string is
stripped and fed to `float`, with `0.0` on a parse failure. -/
def parse_price_to_float (s : String) : PyFloat :=
  if s = "" ∨ s = "N/A" then .finite 0
  else pyFloatValF (pyStrip (removeChars ['$', ','] s.data))

/-- Python `f"${x:,.2f}"` on a `PyFloat` (`inf`/`-inf`/`nan` format as
their names). -/
def formatPyCurrency : PyFloat → String
  | .finite q => formatCurrency q
  | .inf => "$" ++ "inf"
  | .ninf => "$" ++ "-inf"
  | .nan => "$" ++ "nan"

/-- Loop state of the statistics pass: `valid_prices`, `min_price`
(initially `float('inf')`), `min_product`, `min_product_url`. -/
structure StatsAcc where
  valid : List PyFloat
  minP : PyFloat
  minProduct : String
  minUrl : String

/-- One iteration of the loop of `calculate_amazon_price_stats`
(src/scraper_firefox.py:198-214): include when `price_float > 0`, take
over the minimum on a strict `<` against the running minimum. -/
def statsStep (acc : StatsAcc) (q : String × PriceInfo) : StatsAcc :=
  let p := parse_price_to_float q.2.priceStr
  if PyFloat.isPos p then
    if PyFloat.ltb p acc.minP then ⟨acc.valid ++ [p], p, q.1, q.2.urlStr⟩
    else ⟨acc.valid ++ [p], acc.minP, acc.minProduct, acc.minUrl⟩
  else acc

/-- `calculate_amazon_price_stats` (src/scraper_firefox.py:166-233); the
Python dict is modelled as its insertion-ordered association list. -/
def calculate_amazon_price_stats (amazon_prices : List (String × PriceInfo))
    (aliexpress_price : String) : AmazonStats :=
  if amazon_prices.isEmpty then naStats aliexpress_price
  else
    let acc := amazon_prices.foldl statsStep ⟨[], .inf, "", ""⟩
    if acc.valid.isEmpty then naStats aliexpress_price
    else
      { amazon_avg_price :=
          formatPyCurrency (PyFloat.divNat (PyFloat.sumList acc.valid) acc.valid.length)
        amazon_min_price := formatPyCurrency acc.minP
        amazon_min_price_product := acc.minProduct
        amazon_min_price_product_url := acc.minUrl
        ali_express_rec_price := pyOrNA aliexpress_price }

/-- Parsed price of one entry of the competitor map. -/
def parsedOf (q : String × PriceInfo) : PyFloat :=
  parse_price_to_float q.2.priceStr

/-- Parsed price of an entry in the order `WithTop ℚ` (meaningful on the
qualifying, strictly-positive entries). -/
def parsedV (q : String × PriceInfo) : WithTop ℚ :=
  (parsedOf q).toE

/-- The entries of the map whose parsed price is strictly positive — the
quotes the spec calls qualifying (this includes `inf`-priced quotes and
excludes `nan` ones). -/
def qualifyingQuotes (qs : List (String × PriceInfo)) : List (String × PriceInfo) :=
  qs.filter (fun q => (parsedOf q).isPos)

/-- Minimum parsed price over a list of entries (`⊤` for the empty list;
`⊤` also when every entry parses to `inf`). -/
def minParsed : List (String × PriceInfo) → WithTop ℚ
  | [] => ⊤
  | q :: rest => rest.foldl (fun m r => min m (parsedV r)) (parsedV q)

/-! ### Competitor quote collection -/

/-- One parsed search-result row: title (possibly empty when no title
selector hit), price text, and link. -/
structure SearchRow where
  title : String
  price : String
  url : String
deriving DecidableEq, Repr

/-- A value of the result map. -/
structure AmazonQuote where
  price : String
  url : String
deriving DecidableEq, Repr

/-- Python dict assignment on an insertion-ordered association list:
update the value in place when the key exists, else append. -/
def dictInsert (m : List (String × AmazonQuote)) (k : String) (v : AmazonQuote) :
    List (String × AmazonQuote) :=
  if m.any (fun p => p.1 = k) then m.map (fun p => if p.1 = k then (k, v) else p)
  else m ++ [(k, v)]

/-- Python dict lookup on the association-list model. -/
def dictLookup (m : List (String × AmazonQuote)) (k : String) : Option AmazonQuote :=
  (m.find? (fun p => p.1 = k)).map (fun p => p.2)

/-- One iteration of the result loop of `search_amazon_prices_with_driver`:
`if title and len(results) < max_results: results[title] = {...}`. -/
def searchStep (maxResults : ℕ) (m : List (String × AmazonQuote)) (row : SearchRow) :
    List (String × AmazonQuote) :=
  if row.title ≠ "" ∧ m.length < maxResults then dictInsert m row.title ⟨row.price, row.url⟩
  else m

/-- `search_amazon_prices_with_driver` (src/scraper_firefox.py:236-325)
after row parsing: only the first `max_results` result containers are
visited (`result_elements[:max_results]`), and each parsed row is folded
into the titled map. -/
def search_amazon_prices (rows : List SearchRow) (maxResults : ℕ) :
    List (String × AmazonQuote) :=
  (rows.take maxResults).foldl (searchStep maxResults) []

/-- Last occurrence of a title in a row list, as the spec's
last-write-wins policy describes it. -/
def lastQuoteFor (t : String) : List SearchRow → Option AmazonQuote
  | [] => none
  | r :: rest =>
      match lastQuoteFor t rest with
      | some q => some q
      | none => if r.title = t then some ⟨r.price, r.url⟩ else none

/-! ### Variant enumeration -/

/-- One selectable option of a variant property (name, cleaned image url;
the option is its own click handle for the probe). -/
structure PropOption where
  name : String
  image_url : String
deriving DecidableEq, Repr

/-- One discovered variant property row: decorated name plus its ordered,
non-empty option list (rows without options are not appended by the
discovery loop). -/
structure SkuProperty where
  property_name : String
  options : List PropOption
deriving DecidableEq, Repr

/-- One SKU combination: joined name, first available option image, the
option names in row order, and the elements to click. -/
structure SkuCombo where
  name : String
  image_url : String
  options : List String
  elements : List PropOption
deriving DecidableEq, Repr

/-- `itertools.product`: ordered Cartesian product of the option lists,
rightmost list varying fastest. -/
def productLists {α : Type} : List (List α) → List (List α)
  | [] => [[]]
  | l :: ls => l.flatMap (fun x => (productLists ls).map (fun c => x :: c))

/-- Build the combination record of one tuple
(src/scraper_firefox.py:796-817): comma-joined name, first non-empty
option image, option names, click elements. -/
def mkCombo (combination : List PropOption) : SkuCombo :=
  let parts := combination.map (fun o => o.name)
  let images := (combination.filter (fun o => o.image_url ≠ "")).map (fun o => o.image_url)
  { name := String.intercalate ", " parts
    image_url := images.headD ""
    options := parts
    elements := combination }

/-- Combination generation of `_extract_sku_combinations`
(src/scraper_firefox.py:651-826) applied to the discovered property rows:
with no properties the function returns `[]`; otherwise every tuple of
`itertools.product` yields one combination record. -/
def extract_sku_combinations (sku_properties : List SkuProperty) : List SkuCombo :=
  if sku_properties.isEmpty then []
  else (productLists (sku_properties.map (fun p => p.options))).map mkCombo

/-! ### Price probing -/

/-- Remove every occurrence of a pattern (Python `str.replace(pat, "")`,
left-to-right, non-overlapping). -/
def replaceAll (pat : List Char) : List Char → List Char
  | [] => []
  | c :: rest =>
      if pat ≠ [] ∧ (c :: rest).take pat.length = pat then
        replaceAll pat ((c :: rest).drop pat.length)
      else c :: replaceAll pat rest
termination_by cs => cs.length
decreasing_by
  · simp only [List.length_drop, List.length_cons]
    have hpat : 1 ≤ pat.length := by
      rcases pat with _ | ⟨p, ps⟩
      · simp at *
      · simp
    omega
  · simp

/-- `el.text.replace("US $", "").strip()` applied to a raw price read. -/
def strip_us (s : String) : String :=
  ⟨pyStrip (replaceAll ['U', 'S', ' ', '$'] s.data)⟩

/-- Driver outcomes for probing one combination: the raw texts (or
failures) of the convergence-poll reads, and the raw outcomes of the two
final reads.  A dead or failing driver is the all-`none` environment. -/
structure ComboEnv where
  pollReads : List (Option String)
  finalCurrentRead : Option String
  finalOriginalRead : Option String
deriving DecidableEq, Repr

/-- A default price read before the loop (`"N/A"` when the selector read
fails). -/
def defaultPriceRead (r : Option String) : String :=
  match r with
  | some t => strip_us t
  | none => "N/A"

/-- The bounded convergence poll (src/scraper_firefox.py:921-939): return
the first successfully read price text that differs from the pre-probe
default, else the default. -/
def pricePollLoop (defaultCur : String) : List (Option String) → String
  | [] => defaultCur
  | r :: rest =>
      match r with
      | some t => if strip_us t ≠ defaultCur then strip_us t else pricePollLoop defaultCur rest
      | none => pricePollLoop defaultCur rest

/-- Record produced for one combination. -/
structure SkuPriced where
  name : String
  image_url : String
  current_price : String
  history_price : String
deriving DecidableEq, Repr

/-- Probe one combination (src/scraper_firefox.py:873-977): with no click
elements the defaults are recorded directly; otherwise the poll result is
overwritten by the final reads when those succeed.  Click failures are
swallowed by the source and do not affect the record. -/
def probeOne (defaultCur defaultOrig : String) (env : ComboEnv) (combo : SkuCombo) : SkuPriced :=
  if combo.elements.isEmpty then ⟨combo.name, combo.image_url, defaultCur, defaultOrig⟩
  else
    let polled := pricePollLoop defaultCur (env.pollReads.take 15)
    let cur := match env.finalCurrentRead with
      | some t => strip_us t
      | none => polled
    let orig := match env.finalOriginalRead with
      | some t => strip_us t
      | none => defaultOrig
    ⟨combo.name, combo.image_url, cur, orig⟩

/-- The per-combination loop, indexed so the environment can depend on the
combination position. -/
def probeLoop (defaultCur defaultOrig : String) (env : ℕ → ComboEnv) :
    List SkuCombo → ℕ → List SkuPriced
  | [], _ => []
  | c :: rest, i =>
      probeOne defaultCur defaultOrig (env i) c :: probeLoop defaultCur defaultOrig env rest (i + 1)

/-- `_extract_sku_prices` (src/scraper_firefox.py:828-1000): read the
default prices once, then emit one priced record per combination in
order. -/
def extract_sku_prices (defCurRead defOrigRead : Option String) (env : ℕ → ComboEnv)
    (sku_combinations : List SkuCombo) : List SkuPriced :=
  if sku_combinations.isEmpty then []
  else probeLoop (defaultPriceRead defCurRead) (defaultPriceRead defOrigRead) env
    sku_combinations 0

/-- The environment of a driver that answers nothing any more (every read
fails). -/
def deadComboEnv : ComboEnv := ⟨[], none, none⟩

/-- The driver is externally quit between combination `k` and `k + 1`:
combinations from index `k` on only see failing reads. -/
def driverDeadFrom (k : ℕ) (env : ℕ → ComboEnv) : ℕ → ComboEnv :=
  fun i => if i < k then env i else deadComboEnv

/-! ### CAPTCHA gate -/

/-- Observable steps of `_check_and_handle_captcha`
(src/scraper_firefox.py:599-649): a driver call (`find_elements` or
`is_displayed`), the blocking wait on the resume signal, and the
stabilization wait after resuming. -/
inductive GateEvent where
  | driverCall
  | resumeWait
  | stabilize
deriving DecidableEq, Repr

/-- Scan the elements of one selector for a visible one, stopping at the
first hit; each visibility test is a driver call. -/
def scanElems : List Bool → List GateEvent × Bool
  | [] => ([], false)
  | v :: rest =>
      if v then ([GateEvent.driverCall], true)
      else
        let p := scanElems rest
        (GateEvent.driverCall :: p.1, p.2)

/-- The detection loop over the three captcha selectors (each
`find_elements` is a driver call), breaking at the first selector with a
visible element.  The page is abstracted to, per selector, the visibility
of each element it finds. -/
def detectCaptcha : List (List Bool) → List GateEvent × Bool
  | [] => ([], false)
  | sel :: rest =>
      let p := scanElems sel
      if p.2 then (GateEvent.driverCall :: p.1, true)
      else
        let q := detectCaptcha rest
        (GateEvent.driverCall :: p.1 ++ q.1, q.2)

/-- `_check_and_handle_captcha` (src/scraper_firefox.py:599-649): detect;
when a captcha is found, block on the resume signal, wait for the page to
stabilize, and report `True` — the page is declared clear at that point. -/
def check_and_handle_captcha (page : List (List Bool)) : Bool × List GateEvent :=
  let p := detectCaptcha page
  if p.2 then (true, p.1 ++ [GateEvent.resumeWait, GateEvent.stabilize])
  else (false, p.1)

/-- The events the gate performs after the resume signal is observed. -/
def afterResume (tr : List GateEvent) : List GateEvent :=
  (tr.dropWhile (fun e => e != GateEvent.resumeWait)).drop 1

/-! ### Concrete sample data used by the counterexamples and witnesses -/

/-- A ten-combination run (each combination has one clickable element). -/
def sampleCombos : List SkuCombo :=
  (List.range 10).map (fun i => ⟨Nat.repr (i + 1), "", [Nat.repr (i + 1)], [⟨Nat.repr (i + 1), ""⟩]⟩)

/-- A healthy driver environment: every poll and final read answers. -/
def sampleAliveEnv : ℕ → ComboEnv :=
  fun _ => ⟨[some "US $5.00"], some "US $5.00", none⟩

/-- The spec §8 reconciliation example, with one non-qualifying quote. -/
def sampleQuotes : List (String × PriceInfo) :=
  [("A", PriceInfo.newFmt "$4.00" "ua"),
   ("B", PriceInfo.newFmt "$2.00" "ub"),
   ("C", PriceInfo.newFmt "N/A" "uc")]

end EcommCrawler

namespace EcommCrawler

lemma parse_price_nine_fifty : parse_price "9.50" = 19 / 2 := by
  have h : pyFloatParts (pyStrip (removeChars ['$', ',', '¥'] ("9.50").data)) =
      some ⟨false, 950, 2, 0⟩ := by decide
  rw [parse_price, if_neg (by decide), pyFloatVal, h]
  norm_num [ratOfParts]

lemma parse_price_ten : parse_price "10.00" = 10 := by
  have h : pyFloatParts (pyStrip (removeChars ['$', ',', '¥'] ("10.00").data)) =
      some ⟨false, 1000, 2, 0⟩ := by decide
  rw [parse_price, if_neg (by decide), pyFloatVal, h]
  norm_num [ratOfParts]

lemma parse_price_zero : parse_price "0" = 0 := by
  have h : pyFloatParts (pyStrip (removeChars ['$', ',', '¥'] ("0").data)) =
      some ⟨false, 0, 0, 0⟩ := by decide
  rw [parse_price, if_neg (by decide), pyFloatVal, h]
  norm_num [ratOfParts]

end EcommCrawler

namespace EcommCrawler

/-- C2: the final-price computation is blank when either side parses `≤ 0`,
returns the recommended string verbatim exactly when its parsed value is
below the parsed competitor minimum (whether or not it is also below
`competitorMin * 0.95`), and is blank when the parsed recommended price is
`≥` the competitor minimum; the spec's concrete table at discount `0.95`
holds. -/
theorem final_price_rule :
    (∀ r m : String,
      calculate_final_price r m =
        (if parse_price r ≤ 0 ∨ parse_price m ≤ 0 then ""
         else if parse_price r < parse_price m then r else "")) ∧
    calculate_final_price "9.50" "10.00" = "9.50" ∧
    calculate_final_price "10.00" "10.00" = "" ∧
    calculate_final_price "0" "10.00" = "" := by
  have key : ∀ r m : String,
      calculate_final_price r m =
        (if parse_price r ≤ 0 ∨ parse_price m ≤ 0 then ""
         else if parse_price r < parse_price m then r else "") := by
    intro r m
    unfold calculate_final_price calculate_final_price_with PRICE_DISCOUNT
    set a := parse_price r with ha
    set b := parse_price m with hb
    by_cases h : a ≤ 0 ∨ b ≤ 0
    · simp [h]
    · push_neg at h
      obtain ⟨h1, h2⟩ := h
      have hcond : ¬(a ≤ 0 ∨ b ≤ 0) := by push_neg; exact ⟨h1, h2⟩
      simp only [if_neg hcond]
      by_cases h3 : a < b * 0.95
      · have hlt : a < b := lt_of_lt_of_le h3 (by nlinarith)
        simp [h3, hlt]
      · simp [h3]
  refine ⟨key, ?_, ?_, ?_⟩
  · rw [key, parse_price_nine_fifty, parse_price_ten]
    norm_num
  · rw [key, parse_price_ten]
    norm_num
  · rw [key, parse_price_zero]
    norm_num

/-- C9: for every discount `d ≤ 1`, the three-way final-price check of the
source is behaviorally identical to the collapsed two-way form that only
tests `recommended < competitorMin`. -/
theorem final_price_collapse (d : ℚ) (hd : d ≤ 1) (r m : String) :
    calculate_final_price_with d r m = collapsed_final_price r m := by
  unfold calculate_final_price_with collapsed_final_price
  set a := parse_price r with ha
  set b := parse_price m with hb
  by_cases h : a ≤ 0 ∨ b ≤ 0
  · simp [h]
  · push_neg at h
    obtain ⟨h1, h2⟩ := h
    have hcond : ¬(a ≤ 0 ∨ b ≤ 0) := by push_neg; exact ⟨h1, h2⟩
    simp only [if_neg hcond]
    by_cases h3 : a < b * d
    · have hlt : a < b := lt_of_lt_of_le h3 (by nlinarith)
      simp [h3, hlt]
    · simp [h3]

/-- Witness for C9 at the configured discount `0.95 ≤ 1` and the spec's
first table row. -/
theorem final_price_collapse_witness :
    (0.95 : ℚ) ≤ 1 ∧
      calculate_final_price_with 0.95 "9.50" "10.00" =
        collapsed_final_price "9.50" "10.00" :=
  ⟨by norm_num, final_price_collapse 0.95 (by norm_num) "9.50" "10.00"⟩

end EcommCrawler

namespace EcommCrawler

lemma length_productLists {α : Type} (ls : List (List α)) :
    (productLists ls).length = (ls.map List.length).prod := by
  induction ls with
  | nil => simp [productLists]
  | cons l ls ih =>
      simp only [productLists, List.length_flatMap, List.map_cons, List.prod_cons]
      rw [show (List.length ∘ fun x => List.map (fun c : List α => x :: c) (productLists ls)) =
          fun _ => (productLists ls).length from funext (fun x => by simp)]
      rw [List.map_const', List.sum_replicate, smul_eq_mul, ih]

/-- C1: the variant enumerator yields exactly the product of the per-row
option counts, and zero combinations when no property row was
discovered. -/
theorem variant_enumerator_count (props : List SkuProperty) :
    (extract_sku_combinations props).length =
      if props.isEmpty then 0
      else (props.map (fun p => p.options.length)).prod := by
  cases props with
  | nil => simp [extract_sku_combinations]
  | cons p ps =>
      simp only [extract_sku_combinations, List.isEmpty_cons, if_neg Bool.false_ne_true,
        Bool.false_eq_true, if_false, List.length_map, length_productLists, List.map_map]
      rfl

lemma probeOne_name (dC dO : String) (e : ComboEnv) (c : SkuCombo) :
    (probeOne dC dO e c).name = c.name := by
  unfold probeOne
  split <;> rfl

lemma probeOne_image (dC dO : String) (e : ComboEnv) (c : SkuCombo) :
    (probeOne dC dO e c).image_url = c.image_url := by
  unfold probeOne
  split <;> rfl

lemma probeLoop_shape (dC dO : String) (env : ℕ → ComboEnv) :
    ∀ (combos : List SkuCombo) (i : ℕ),
      (probeLoop dC dO env combos i).length = combos.length ∧
      (probeLoop dC dO env combos i).map (fun r => r.name) = combos.map (fun c => c.name) ∧
      (probeLoop dC dO env combos i).map (fun r => r.image_url) =
        combos.map (fun c => c.image_url) := by
  intro combos
  induction combos with
  | nil => intro i; simp [probeLoop]
  | cons c rest ih =>
      intro i
      obtain ⟨h1, h2, h3⟩ := ih (i + 1)
      refine ⟨?_, ?_, ?_⟩ <;>
        simp [probeLoop, h1, h2, h3, probeOne_name, probeOne_image]

/-- C6: the price probe emits exactly one priced record per input
combination, in enumeration order, carrying that combination's name and
image — for every pattern of click/read failures of the page
(the environment ranges over all of them). -/
theorem price_probe_total (defC defO : Option String) (env : ℕ → ComboEnv)
    (combos : List SkuCombo) :
    (extract_sku_prices defC defO env combos).length = combos.length ∧
    (extract_sku_prices defC defO env combos).map (fun r => r.name) =
      combos.map (fun c => c.name) ∧
    (extract_sku_prices defC defO env combos).map (fun r => r.image_url) =
      combos.map (fun c => c.image_url) := by
  unfold extract_sku_prices
  split
  · rename_i h
    simp_all [List.isEmpty_iff]
  · exact probeLoop_shape _ _ env combos 0

lemma probeOne_dead (dC dO : String) (c : SkuCombo) :
    probeOne dC dO deadComboEnv c = ⟨c.name, c.image_url, dC, dO⟩ := by
  unfold probeOne deadComboEnv
  split <;> simp [pricePollLoop]

lemma probeLoop_dead (dC dO : String) (env : ℕ → ComboEnv) (k : ℕ) :
    ∀ (combos : List SkuCombo) (i : ℕ), k ≤ i →
      probeLoop dC dO (driverDeadFrom k env) combos i =
        combos.map (fun c => ⟨c.name, c.image_url, dC, dO⟩) := by
  intro combos
  induction combos with
  | nil => intro i _; simp [probeLoop]
  | cons c rest ih =>
      intro i hi
      have henv : driverDeadFrom k env i = deadComboEnv := by
        unfold driverDeadFrom
        rw [if_neg (by omega)]
      simp [probeLoop, henv, probeOne_dead, ih (i + 1) (by omega)]

lemma probeLoop_drop (dC dO : String) (env : ℕ → ComboEnv) :
    ∀ (combos : List SkuCombo) (k i : ℕ),
      (probeLoop dC dO env combos i).drop k = probeLoop dC dO env (combos.drop k) (i + k) := by
  intro combos
  induction combos with
  | nil => intro k i; simp [probeLoop]
  | cons c rest ih =>
      intro k i
      cases k with
      | zero => simp [probeLoop]
      | succ k' =>
          simp only [probeLoop, List.drop_succ_cons]
          rw [ih k' (i + 1)]
          congr 1
          omega

/-- C8 (amended): when the external stop quits the driver between
combination `k` and `k + 1`, the probe loop observes no cancellation — it
still emits exactly one record per combination, and every combination from
index `k` on is recorded with the pre-probe default prices. -/
theorem probe_emits_through_stop (defC defO : Option String) (env : ℕ → ComboEnv)
    (combos : List SkuCombo) (k : ℕ) :
    (extract_sku_prices defC defO (driverDeadFrom k env) combos).length = combos.length ∧
    (extract_sku_prices defC defO (driverDeadFrom k env) combos).drop k =
      (combos.drop k).map
        (fun c => ⟨c.name, c.image_url, defaultPriceRead defC, defaultPriceRead defO⟩) := by
  constructor
  · exact (price_probe_total defC defO (driverDeadFrom k env) combos).1
  · unfold extract_sku_prices
    split
    · rename_i h
      rw [List.isEmpty_iff] at h
      subst h
      simp
    · rw [probeLoop_drop, probeLoop_dead _ _ env k (combos.drop k) (0 + k) (by omega)]

/-- C8 counterexample: stopping between combination 3 and 4 of the
ten-combination sample run does not yield zero records for the in-flight
target — the probe emits all ten. -/
theorem probe_stop_counterexample :
    sampleCombos.length = 10 ∧
    (extract_sku_prices (some "US $4.00") none (driverDeadFrom 3 sampleAliveEnv)
        sampleCombos).length = 10 ∧
    ¬ ((extract_sku_prices (some "US $4.00") none (driverDeadFrom 3 sampleAliveEnv)
        sampleCombos).length = 0) := by
  refine ⟨by decide, by decide, by decide⟩

lemma scanElems_events (l : List Bool) :
    ∀ e ∈ (scanElems l).1, e = GateEvent.driverCall := by
  induction l with
  | nil => simp [scanElems]
  | cons v rest ih =>
      intro e he
      unfold scanElems at he
      split at he
      · simp at he
        exact he
      · simp only [List.mem_cons] at he
        rcases he with he | he
        · exact he
        · exact ih e he

lemma detectCaptcha_events (page : List (List Bool)) :
    ∀ e ∈ (detectCaptcha page).1, e = GateEvent.driverCall := by
  induction page with
  | nil => simp [detectCaptcha]
  | cons sel rest ih =>
      intro e he
      unfold detectCaptcha at he
      dsimp only at he
      split at he
      · simp only [List.mem_cons] at he
        rcases he with he | he
        · exact he
        · exact scanElems_events sel e he
      · simp only [List.cons_append, List.mem_cons, List.mem_append] at he
        rcases he with he | he | he
        · exact he
        · exact scanElems_events sel e he
        · exact ih e he

/-- C7 (amended): the gate result mirrors the detection outcome; once
blocked, the trace continues with the resume wait and a single
stabilization wait only — in particular no driver call, and hence zero
indicator re-checks, happens after the resume signal is observed. -/
theorem captcha_gate_behavior (page : List (List Bool)) :
    (check_and_handle_captcha page).1 = (detectCaptcha page).2 ∧
    GateEvent.driverCall ∉ afterResume (check_and_handle_captcha page).2 ∧
    ((detectCaptcha page).2 = true →
      (check_and_handle_captcha page).2 =
        (detectCaptcha page).1 ++ [GateEvent.resumeWait, GateEvent.stabilize]) := by
  have hdrop : (detectCaptcha page).1.dropWhile (fun e => e != GateEvent.resumeWait) = [] := by
    rw [List.dropWhile_eq_nil_iff]
    intro e he
    rw [detectCaptcha_events page e he]
    decide
  unfold check_and_handle_captcha
  by_cases h : (detectCaptcha page).2
  · refine ⟨by simp [h], ?_, fun _ => by simp [h]⟩
    simp only [h, if_true, afterResume, List.dropWhile_append, hdrop]
    decide
  · refine ⟨by simp [h], ?_, fun hc => absurd hc (by simp [h])⟩
    simp only [h, if_false, afterResume, hdrop, Bool.false_eq_true]
    simp

/-- Witness for C7 on a page whose first selector finds one visible
indicator. -/
theorem captcha_gate_behavior_witness :
    (detectCaptcha [[true]]).2 = true ∧
    (check_and_handle_captcha [[true]]).2 =
      (detectCaptcha [[true]]).1 ++ [GateEvent.resumeWait, GateEvent.stabilize] ∧
    GateEvent.driverCall ∉ afterResume (check_and_handle_captcha [[true]]).2 :=
  ⟨by decide, (captcha_gate_behavior [[true]]).2.2 (by decide),
    (captcha_gate_behavior [[true]]).2.1⟩

/-- C7 counterexample: after the resume signal the gate performs zero
driver calls, not the exactly-one indicator re-check the claim states. -/
theorem captcha_gate_no_recheck_counterexample :
    ¬ ((afterResume (check_and_handle_captcha [[true]]).2).count GateEvent.driverCall = 1) := by
  decide

end EcommCrawler

namespace EcommCrawler

lemma find?_keyMap_other (m : List (String × AmazonQuote)) (k k' : String) (v : AmazonQuote)
    (h : k' ≠ k) :
    (m.map (fun p => if p.1 = k then (k, v) else p)).find? (fun p => decide (p.1 = k')) =
      m.find? (fun p => decide (p.1 = k')) := by
  induction m with
  | nil => simp
  | cons p rest ih =>
      rw [List.map_cons, List.find?_cons, List.find?_cons]
      by_cases hp : p.1 = k
      · rw [if_pos hp]
        have hkk' : ¬ ((k, v) : String × AmazonQuote).1 = k' := fun hh => h hh.symm
        have hp' : ¬ p.1 = k' := by rw [hp]; exact fun hh => h hh.symm
        rw [decide_eq_false hkk', decide_eq_false hp']
        exact ih
      · rw [if_neg hp]
        cases hd : decide (p.1 = k')
        · exact ih
        · rfl

lemma find?_keyMap_self (m : List (String × AmazonQuote)) (k : String) (v : AmazonQuote)
    (h : m.any (fun p => decide (p.1 = k)) = true) :
    (m.map (fun p => if p.1 = k then (k, v) else p)).find? (fun p => decide (p.1 = k)) =
      some (k, v) := by
  induction m with
  | nil => simp at h
  | cons p rest ih =>
      by_cases hp : p.1 = k
      · simp [List.find?_cons, hp]
      · have h' : rest.any (fun p => decide (p.1 = k)) = true := by
          simp only [List.any_cons, Bool.or_eq_true, decide_eq_true_eq] at h
          rcases h with h | h
          · exact absurd h hp
          · exact h
        simp [List.find?_cons, hp, ih h']

lemma dictLookup_insert_self (m : List (String × AmazonQuote)) (k : String) (v : AmazonQuote) :
    dictLookup (dictInsert m k v) k = some v := by
  unfold dictInsert dictLookup
  split
  · rename_i h
    rw [find?_keyMap_self m k v h]
    rfl
  · rename_i h
    rw [List.find?_append]
    have hnone : m.find? (fun p => decide (p.1 = k)) = none := by
      rw [List.find?_eq_none]
      intro x hx hpx
      exact absurd (List.any_eq_true.mpr ⟨x, hx, hpx⟩) h
    rw [hnone]
    simp [List.find?_cons]

lemma dictLookup_insert_other (m : List (String × AmazonQuote)) (k k' : String)
    (v : AmazonQuote) (h : k' ≠ k) :
    dictLookup (dictInsert m k v) k' = dictLookup m k' := by
  unfold dictInsert dictLookup
  split
  · rw [find?_keyMap_other m k k' v h]
  · rw [List.find?_append]
    have hkk' : ¬ (((k, v) : String × AmazonQuote).1 = k') := fun hh => h hh.symm
    have : List.find? (fun p => decide (p.1 = k')) [(k, v)] = none := by
      rw [List.find?_cons, decide_eq_false hkk']
      rfl
    rw [this]
    cases m.find? (fun p => decide (p.1 = k')) <;> rfl

lemma dictInsert_length (m : List (String × AmazonQuote)) (k : String) (v : AmazonQuote) :
    (dictInsert m k v).length ≤ m.length + 1 := by
  unfold dictInsert
  split
  · simp
  · simp

lemma search_fold_length (maxR : ℕ) :
    ∀ (rows : List SearchRow) (m : List (String × AmazonQuote)),
      m.length ≤ maxR → (rows.foldl (searchStep maxR) m).length ≤ maxR := by
  intro rows
  induction rows with
  | nil => intro m hm; exact hm
  | cons r rest ih =>
      intro m hm
      simp only [List.foldl_cons]
      apply ih
      unfold searchStep
      split
      · rename_i hg
        calc (dictInsert m r.title ⟨r.price, r.url⟩).length ≤ m.length + 1 :=
              dictInsert_length m r.title ⟨r.price, r.url⟩
          _ ≤ maxR := by omega
      · exact hm

lemma search_fold_lookup (maxR : ℕ) (t : String) (ht : t ≠ "") :
    ∀ (rows : List SearchRow) (m : List (String × AmazonQuote)),
      m.length + rows.length ≤ maxR →
      dictLookup (rows.foldl (searchStep maxR) m) t =
        match lastQuoteFor t rows with
        | some q => some q
        | none => dictLookup m t := by
  intro rows
  induction rows with
  | nil => intro m _; simp [lastQuoteFor]
  | cons r rest ih =>
      intro m hm
      simp only [List.length_cons] at hm
      have hstep : (searchStep maxR m r).length ≤ m.length + 1 := by
        unfold searchStep
        split
        · exact dictInsert_length m r.title ⟨r.price, r.url⟩
        · omega
      rw [List.foldl_cons, ih (searchStep maxR m r) (by omega)]
      cases hq : lastQuoteFor t rest with
      | some q => simp [lastQuoteFor, hq]
      | none =>
          simp only [lastQuoteFor, hq]
          by_cases hrt : r.title = t
          · rw [if_pos hrt]
            unfold searchStep
            rw [if_pos ⟨hrt ▸ ht, by omega⟩, hrt]
            exact dictLookup_insert_self m t ⟨r.price, r.url⟩
          · rw [if_neg hrt]
            unfold searchStep
            split
            · exact dictLookup_insert_other m r.title t ⟨r.price, r.url⟩ (fun h => hrt h.symm)
            · rfl

/-- C10 (amended): the competitor quote collector returns at most
`maxResults` titled entries, and — among the first `maxResults` parsed
result rows, the only ones the source visits — a repeated non-empty title
resolves to its last occurrence (later price and url replace earlier
ones). -/
theorem competitor_collector_dedup (rows : List SearchRow) (maxResults : ℕ) :
    (search_amazon_prices rows maxResults).length ≤ maxResults ∧
    (∀ t : String, t ≠ "" →
      dictLookup (search_amazon_prices rows maxResults) t =
        lastQuoteFor t (rows.take maxResults)) := by
  constructor
  · exact search_fold_length maxResults (rows.take maxResults) [] (by simp)
  · intro t ht
    unfold search_amazon_prices
    rw [search_fold_lookup maxResults t ht (rows.take maxResults) [] (by simp)]
    cases lastQuoteFor t (rows.take maxResults) <;> rfl

/-- Witness for C10: two rows with the repeated title `"A"` inside the
visited window; the later row's price and url win. -/
theorem competitor_collector_dedup_witness :
    ("A" : String) ≠ "" ∧
    dictLookup (search_amazon_prices [⟨"A", "$1", "u1"⟩, ⟨"A", "$2", "u2"⟩] 2) "A" =
      some ⟨"$2", "u2"⟩ := by
  refine ⟨by decide, ?_⟩
  rw [(competitor_collector_dedup [⟨"A", "$1", "u1"⟩, ⟨"A", "$2", "u2"⟩] 2).2 "A" (by decide)]
  decide

/-- C10 counterexample: with `maxResults = 1` only the first row is
visited, so the later duplicate-titled row does not replace the earlier
one — last-occurrence-wins fails over the full input sequence. -/
theorem competitor_collector_dedup_counterexample :
    dictLookup (search_amazon_prices [⟨"A", "$1", "u1"⟩, ⟨"A", "$2", "u2"⟩] 1) "A" =
      some ⟨"$1", "u1"⟩ ∧
    ¬ (dictLookup (search_amazon_prices [⟨"A", "$1", "u1"⟩, ⟨"A", "$2", "u2"⟩] 1) "A" =
      some ⟨"$2", "u2"⟩) := by
  refine ⟨by decide, by decide⟩

end EcommCrawler

namespace EcommCrawler

/-- C4 counterexample: the empty reference price does not pass through
verbatim — `aliexpress_price or "N/A"` turns it into `"N/A"`. -/
theorem rec_price_passthrough_counterexample :
    (calculate_amazon_price_stats [] "").ali_express_rec_price = "N/A" ∧
    ¬ ((calculate_amazon_price_stats [] "").ali_express_rec_price = "") := by
  refine ⟨by decide, by decide⟩

/-- C4 (amended): for every quotes mapping, the `recommendedPrice` field
equals the input `localPrice` verbatim whenever that input is non-empty
(the empty string is falsy in Python and falls back to `"N/A"`). -/
theorem rec_price_passthrough (quotes : List (String × PriceInfo)) (lp : String)
    (h : lp ≠ "") :
    (calculate_amazon_price_stats quotes lp).ali_express_rec_price = lp := by
  unfold calculate_amazon_price_stats
  split
  · simp [naStats, pyOrNA, h]
  · dsimp only
    split
    · simp [naStats, pyOrNA, h]
    · simp [pyOrNA, h]

/-- Witness for C4 at a non-empty reference price. -/
theorem rec_price_passthrough_witness :
    ("7.00" : String) ≠ "" ∧
    (calculate_amazon_price_stats [] "7.00").ali_express_rec_price = "7.00" :=
  ⟨by decide, rec_price_passthrough [] "7.00" (by decide)⟩

end EcommCrawler

namespace EcommCrawler

end EcommCrawler


namespace EcommCrawler

lemma stripCI_suffix {pat cs r : List Char} (h : stripCI pat cs = some r) : r <:+ cs := by
  unfold stripCI at h
  split at h
  · injection h with h
    rw [← h]
    exact List.drop_suffix _ _
  · exact absurd h (by simp)

lemma endTail_suffix {rr r : List Char} (h : endTail rr = some r) : r <:+ rr := by
  unfold endTail at h
  split at h
  · injection h with h
    rw [← h]
  · split at h
    · rename_i rr2 hs
      split at h
      · injection h with h
        rw [← h]
        exact stripCI_suffix hs
      · exact absurd h (by simp)
    · exact absurd h (by simp)

lemma firstSome_ex {α β : Type} {f : α → Option β} {b : β} :
    ∀ {l : List α}, firstSome f l = some b → ∃ a ∈ l, f a = some b := by
  intro l
  induction l with
  | nil => intro h; exact absurd h (by simp [firstSome])
  | cons a rest ih =>
      intro h
      unfold firstSome at h
      split at h
      · rename_i v hv
        injection h with h
        exact ⟨a, List.mem_cons_self a rest, by rw [hv, h]⟩
      · obtain ⟨a', ha', hfa'⟩ := ih h
        exact ⟨a', List.mem_cons_of_mem a ha', hfa'⟩

lemma dropDigits1_suffix {cs r : List Char} (h : dropDigits1 cs = some r) : r <:+ cs := by
  unfold dropDigits1 at h
  dsimp only at h
  split at h
  · exact absurd h (by simp)
  · injection h with h
    rw [← h]
    exact List.drop_suffix _ _

lemma match1Tail_suffix {s r : List Char} (h : match1Tail s = some r) : r <:+ s := by
  unfold match1Tail at h
  split at h
  · rename_i r1
    split at h
    · exact absurd h (by simp)
    · rename_i r2 hd1
      split at h
      · exact absurd h (by simp)
      · rename_i x r3
        split at h
        · dsimp only at h
          split at h
          · exact absurd h (by simp)
          · rename_i r4 hd2
            split at h
            · rename_i tl heq
              obtain ⟨ext, _, hext⟩ := firstSome_ex h
              revert hext
              split
              · rename_i rr hrr
                intro hend
                have h3 : tl <:+ r4 := by
                  have h3a : tl <:+ '.' :: tl := List.suffix_cons '.' tl
                  rw [← heq] at h3a
                  exact h3a.trans (List.drop_suffix _ _)
                have h6 : x :: r3 <:+ r1 := dropDigits1_suffix hd1
                exact ((((((endTail_suffix hend).trans (stripCI_suffix hrr)).trans
                  h3).trans (dropDigits1_suffix hd2)).trans
                  ((List.suffix_cons x r3).trans h6)).trans (List.suffix_cons '_' r1))
              · intro hn
                exact absurd hn (by simp)
            · exact absurd h (by simp)
        · exact absurd h (by simp)
  · exact absurd h (by simp)

lemma match2Tail_chars {s r : List Char} (h : match2Tail s = some r) :
    ∀ c ∈ r, c ∈ s ∨ c = '.' := by
  unfold match2Tail at h
  split at h
  · exact absurd h (by simp)
  · rename_i tl htl
    obtain ⟨ext, _, hext⟩ := firstSome_ex h
    revert hext
    split
    · rename_i rr hrr
      split
      · intro hsome
        injection hsome with hsome
        intro c hc
        rw [← hsome] at hc
        rcases List.mem_cons.mp hc with hcd | hcm
        · exact Or.inr hcd
        · rcases List.mem_append.mp hcm with hcm | hcm
          · exact Or.inl ((stripCI_suffix htl).subset (List.take_subset _ _ hcm))
          · exact Or.inl ((stripCI_suffix htl).subset ((stripCI_suffix hrr).subset hcm))
      · intro hn
        exact absurd hn (by simp)
    · intro hn
      exact absurd hn (by simp)

lemma match3Tail_chars {s r : List Char} (h : match3Tail s = some r) :
    ∀ c ∈ r, c ∈ s ∨ c = '.' := by
  unfold match3Tail at h
  split at h
  · exact absurd h (by simp)
  · rename_i tl htl
    obtain ⟨ext, _, hext⟩ := firstSome_ex h
    revert hext
    split
    · rename_i rr hrr
      split
      · intro hsome
        injection hsome with hsome
        intro c hc
        rw [← hsome] at hc
        rcases List.mem_cons.mp hc with hcd | hcm
        · exact Or.inr hcd
        · rcases List.mem_append.mp hcm with hcm | hcm
          · exact Or.inl ((stripCI_suffix htl).subset (List.take_subset _ _ hcm))
          · exact Or.inl ((stripCI_suffix htl).subset ((stripCI_suffix hrr).subset hcm))
      · intro hn
        exact absurd hn (by simp)
    · intro hn
      exact absurd hn (by simp)

lemma match1Tail_chars {s r : List Char} (h : match1Tail s = some r) :
    ∀ c ∈ r, c ∈ s ∨ c = '.' :=
  fun _ hc => Or.inl ((match1Tail_suffix h).subset hc)

lemma subLeftmost_chars {f : List Char → Option (List Char)}
    (hf : ∀ s r, f s = some r → ∀ c ∈ r, c ∈ s ∨ c = '.') :
    ∀ (cs : List Char) (c : Char), c ∈ subLeftmost f cs → c ∈ cs ∨ c = '.' := by
  intro cs
  induction cs with
  | nil =>
      intro c hc
      unfold subLeftmost at hc
      split at hc
      · rename_i r hr
        exact hf [] r hr c hc
      · simp at hc
  | cons a rest ih =>
      intro c hc
      unfold subLeftmost at hc
      split at hc
      · rename_i r hr
        exact hf _ r hr c hc
      · rcases List.mem_cons.mp hc with hca | hcm
        · exact Or.inl (hca ▸ List.mem_cons_self a rest)
        · rcases ih c hcm with h' | h'
          · exact Or.inl (List.mem_cons_of_mem a h')
          · exact Or.inr h'

lemma clean_image_url_no_query {x y : String} (h : clean_image_url x = some y) :
    ∀ c ∈ y.data, c ≠ '?' := by
  unfold clean_image_url at h
  split at h
  · exact absurd h (by simp)
  · dsimp only at h
    injection h with h
    intro c hc
    rw [← h] at hc
    have hb3 : ∀ d : Char,
        d ∈ subLeftmost match3Tail (subLeftmost match2Tail
          (subLeftmost match1Tail (x.data.takeWhile (fun c => c ≠ '?')))) →
        d ≠ '?' := by
      intro d hd
      have hstep3 := subLeftmost_chars (fun s r hr => match3Tail_chars hr) _ d hd
      rcases hstep3 with hd2 | hdot
      · have hstep2 := subLeftmost_chars (fun s r hr => match2Tail_chars hr) _ d hd2
        rcases hstep2 with hd1 | hdot
        · have hstep1 := subLeftmost_chars (fun s r hr => match1Tail_chars hr) _ d hd1
          rcases hstep1 with hd0 | hdot
          · have := List.mem_takeWhile_imp hd0
            exact of_decide_eq_true this
          · rw [hdot]; decide
        · rw [hdot]; decide
      · rw [hdot]; decide
    dsimp only at hc
    split at hc
    · rcases List.mem_append.mp hc with hch | hcm
      · have hlit : ∀ d ∈ ("https:" : String).data, d ≠ '?' := by decide
        exact hlit c hch
      · exact hb3 c hcm
    · exact hb3 c hc

lemma clean_image_url_not_protoRel {x y : String} (h : clean_image_url x = some y) :
    ¬ (y.data.take 2 = ['/', '/']) := by
  unfold clean_image_url at h
  split at h
  · exact absurd h (by simp)
  · dsimp only at h
    injection h with h
    rw [← h]
    split
    · intro hcontra
      have habs : (['h', 't'] : List Char) = ['/', '/'] := hcontra
      exact absurd habs (by decide)
    · rename_i hb3
      exact hb3

/-- C5 (amended): normalization strips query parameters (the spec's
concrete example holds), and re-normalizing is the identity on every
non-empty normalized output to which no suffix substitution applies any
more.  A single application removes only one suffix layer, so full
idempotence fails on stacked suffixes (see the counterexample). -/
theorem clean_image_url_idem :
    clean_image_url "http://x/img.jpg?w=10" = clean_image_url "http://x/img.jpg" ∧
    (∀ x y : String, clean_image_url x = some y → y ≠ "" → suffixStable y.data →
      clean_image_url y = some y) := by
  refine ⟨by decide, ?_⟩
  intro x y hxy hny hstab
  have hq := clean_image_url_no_query hxy
  have hpp := clean_image_url_not_protoRel hxy
  unfold clean_image_url
  rw [if_neg hny]
  have hbase : y.data.takeWhile (fun c => c ≠ '?') = y.data := by
    rw [List.takeWhile_eq_self_iff]
    intro c hc
    exact decide_eq_true (hq c hc)
  dsimp only
  rw [hbase, hstab.1, hstab.2.1, hstab.2.2, if_neg hpp]

/-- Witness for C5 on an already-normalized url. -/
theorem clean_image_url_idem_witness :
    clean_image_url "http://x/img.jpg" = some "http://x/img.jpg" ∧
    ("http://x/img.jpg" : String) ≠ "" ∧
    suffixStable ("http://x/img.jpg" : String).data ∧
    clean_image_url "http://x/img.jpg" = some "http://x/img.jpg" :=
  ⟨by decide, by decide, by decide,
    clean_image_url_idem.2 "http://x/img.jpg" "http://x/img.jpg"
      (by decide) (by decide) (by decide)⟩

/-- C5 counterexample: on a url with two stacked size suffixes a second
normalization pass strips further, so `normalize ∘ normalize` differs from
`normalize` — normalization is not idempotent as claimed. -/
theorem clean_image_url_not_idempotent :
    clean_image_url "http://a/b_50x50.jpg_100x100.jpg" = some "http://a/b_50x50.jpg" ∧
    (clean_image_url "http://a/b_50x50.jpg_100x100.jpg").bind clean_image_url =
      some "http://a/b" ∧
    ¬ ((clean_image_url "http://a/b_50x50.jpg_100x100.jpg").bind clean_image_url =
      clean_image_url "http://a/b_50x50.jpg_100x100.jpg") := by
  refine ⟨by decide, by decide, by decide⟩

end EcommCrawler

namespace EcommCrawler

lemma ltb_toE {a b : PyFloat} (ha : a.isPos = true) (hb : b.isPos = true) :
    a.ltb b = decide (a.toE < b.toE) := by
  cases a <;> cases b <;>
    simp_all [PyFloat.isPos, PyFloat.ltb, PyFloat.toE, WithTop.coe_lt_coe,
      WithTop.coe_lt_top, not_top_lt]

lemma toE_finite_of_isPos {x : PyFloat} (hx : x.isPos = true) {c : ℚ}
    (h : x.toE = (c : WithTop ℚ)) : x = .finite c := by
  cases x with
  | finite q =>
      rw [show (PyFloat.finite q).toE = (q : WithTop ℚ) from rfl] at h
      rw [WithTop.coe_inj.mp h]
  | inf => exact absurd h.symm WithTop.coe_ne_top
  | ninf => simp [PyFloat.isPos, PyFloat.ltb] at hx
  | nan => simp [PyFloat.isPos, PyFloat.ltb] at hx

lemma statsStep_hit (acc : StatsAcc) (q : String × PriceInfo)
    (h0 : (parsedOf q).isPos = true) (hlt : PyFloat.ltb (parsedOf q) acc.minP = true) :
    statsStep acc q = ⟨acc.valid ++ [parsedOf q], parsedOf q, q.1, q.2.urlStr⟩ := by
  unfold statsStep
  dsimp only
  rw [if_pos (show (parse_price_to_float q.2.priceStr).isPos = true from h0),
    if_pos (show PyFloat.ltb (parse_price_to_float q.2.priceStr) acc.minP = true from hlt)]
  rfl

lemma statsStep_keep (acc : StatsAcc) (q : String × PriceInfo)
    (h0 : (parsedOf q).isPos = true) (hge : PyFloat.ltb (parsedOf q) acc.minP = false) :
    statsStep acc q = ⟨acc.valid ++ [parsedOf q], acc.minP, acc.minProduct, acc.minUrl⟩ := by
  unfold statsStep
  dsimp only
  rw [if_pos (show (parse_price_to_float q.2.priceStr).isPos = true from h0),
    if_neg (show ¬ PyFloat.ltb (parse_price_to_float q.2.priceStr) acc.minP = true by
      rw [show PyFloat.ltb (parse_price_to_float q.2.priceStr) acc.minP = false from hge]
      exact Bool.false_ne_true)]
  rfl

lemma fold_filter_stats :
    ∀ (qs : List (String × PriceInfo)) (acc : StatsAcc),
      qs.foldl statsStep acc = (qualifyingQuotes qs).foldl statsStep acc := by
  intro qs
  induction qs with
  | nil => intro acc; rfl
  | cons q rest ih =>
      intro acc
      by_cases h : (parsedOf q).isPos = true
      · rw [List.foldl_cons]
        have hfil : qualifyingQuotes (q :: rest) = q :: qualifyingQuotes rest := by
          unfold qualifyingQuotes
          rw [List.filter_cons, if_pos h]
        rw [hfil, List.foldl_cons, ih]
      · have hskip : statsStep acc q = acc := by
          unfold statsStep parsedOf at *
          dsimp only
          rw [if_neg h]
        have hfil : qualifyingQuotes (q :: rest) = qualifyingQuotes rest := by
          unfold qualifyingQuotes
          rw [List.filter_cons, if_neg h]
        rw [List.foldl_cons, hskip, hfil, ih]

lemma statsFold_valid :
    ∀ (Q : List (String × PriceInfo)) (acc : StatsAcc),
      (∀ q ∈ Q, (parsedOf q).isPos = true) →
      (Q.foldl statsStep acc).valid = acc.valid ++ Q.map parsedOf := by
  intro Q
  induction Q with
  | nil => intro acc _; simp
  | cons q rest ih =>
      intro acc hall
      have h0 := hall q (List.mem_cons_self q rest)
      have hstep : (statsStep acc q).valid = acc.valid ++ [parsedOf q] := by
        cases hb : PyFloat.ltb (parsedOf q) acc.minP
        · rw [statsStep_keep acc q h0 hb]
        · rw [statsStep_hit acc q h0 hb]
      rw [List.foldl_cons, ih (statsStep acc q) (fun r hr => hall r (List.mem_cons_of_mem q hr)),
        hstep, List.map_cons]
      simp

lemma foldMinV_le_init :
    ∀ (Q : List (String × PriceInfo)) (m : WithTop ℚ),
      Q.foldl (fun x r => min x (parsedV r)) m ≤ m := by
  intro Q
  induction Q with
  | nil => intro m; simp
  | cons q rest ih =>
      intro m
      rw [List.foldl_cons]
      exact le_trans (ih (min m (parsedV q))) (min_le_left _ _)

lemma foldMinV_le_mem :
    ∀ (Q : List (String × PriceInfo)) (m : WithTop ℚ) (q : String × PriceInfo), q ∈ Q →
      Q.foldl (fun x r => min x (parsedV r)) m ≤ parsedV q := by
  intro Q
  induction Q with
  | nil => intro m q hq; simp at hq
  | cons r rest ih =>
      intro m q hq
      rw [List.foldl_cons]
      rcases List.mem_cons.mp hq with hq | hq
      · subst hq
        exact le_trans (foldMinV_le_init rest _) (min_le_right _ _)
      · exact ih _ q hq

lemma foldMinV_stable :
    ∀ (Q : List (String × PriceInfo)) (m : WithTop ℚ), (∀ q ∈ Q, m ≤ parsedV q) →
      Q.foldl (fun x r => min x (parsedV r)) m = m := by
  intro Q
  induction Q with
  | nil => intro m _; rfl
  | cons q rest ih =>
      intro m hall
      rw [List.foldl_cons, min_eq_left (hall q (List.mem_cons_self q rest)),
        ih m (fun r hr => hall r (List.mem_cons_of_mem q hr))]

lemma foldMinV_mem_or :
    ∀ (Q : List (String × PriceInfo)) (m : WithTop ℚ),
      Q.foldl (fun x r => min x (parsedV r)) m = m ∨
        ∃ q ∈ Q, Q.foldl (fun x r => min x (parsedV r)) m = parsedV q := by
  intro Q
  induction Q with
  | nil => intro m; exact Or.inl rfl
  | cons q rest ih =>
      intro m
      rw [List.foldl_cons]
      rcases ih (min m (parsedV q)) with h | ⟨r, hr, h⟩
      · rcases le_total m (parsedV q) with hle | hle
        · rw [h, min_eq_left hle]
          exact Or.inl rfl
        · rw [h, min_eq_right hle]
          exact Or.inr ⟨q, List.mem_cons_self q rest, rfl⟩
      · exact Or.inr ⟨r, List.mem_cons_of_mem q hr, h⟩

lemma statsFold_min_stable :
    ∀ (Q : List (String × PriceInfo)) (acc : StatsAcc),
      (∀ q ∈ Q, (parsedOf q).isPos = true) → acc.minP.isPos = true →
      (∀ q ∈ Q, acc.minP.toE ≤ parsedV q) →
      (Q.foldl statsStep acc).minP = acc.minP ∧
      (Q.foldl statsStep acc).minProduct = acc.minProduct ∧
      (Q.foldl statsStep acc).minUrl = acc.minUrl := by
  intro Q
  induction Q with
  | nil => intro acc _ _ _; exact ⟨rfl, rfl, rfl⟩
  | cons q rest ih =>
      intro acc hpos hmp hge
      have h0 := hpos q (List.mem_cons_self q rest)
      have hkeep : PyFloat.ltb (parsedOf q) acc.minP = false := by
        rw [ltb_toE h0 hmp]
        exact decide_eq_false (not_lt.mpr (hge q (List.mem_cons_self q rest)))
      rw [List.foldl_cons, statsStep_keep acc q h0 hkeep]
      exact ih ⟨acc.valid ++ [parsedOf q], acc.minP, acc.minProduct, acc.minUrl⟩
        (fun r hr => hpos r (List.mem_cons_of_mem q hr)) hmp
        (fun r hr => hge r (List.mem_cons_of_mem q hr))

lemma statsFold_min_update :
    ∀ (Q : List (String × PriceInfo)) (acc : StatsAcc) (w : String × PriceInfo),
      (∀ q ∈ Q, (parsedOf q).isPos = true) → acc.minP.isPos = true →
      Q.foldl (fun x r => min x (parsedV r)) acc.minP.toE < acc.minP.toE →
      Q.find? (fun q => decide (parsedV q =
        Q.foldl (fun x r => min x (parsedV r)) acc.minP.toE)) = some w →
      (Q.foldl statsStep acc).minP.toE =
        Q.foldl (fun x r => min x (parsedV r)) acc.minP.toE ∧
      (Q.foldl statsStep acc).minP.isPos = true ∧
      (Q.foldl statsStep acc).minProduct = w.1 ∧
      (Q.foldl statsStep acc).minUrl = w.2.urlStr := by
  intro Q
  induction Q with
  | nil =>
      intro acc w _ _ hlt _
      simp at hlt
  | cons q rest ih =>
      intro acc w hpos hmp hlt hfind
      have h0 := hpos q (List.mem_cons_self q rest)
      have hposr : ∀ r ∈ rest, (parsedOf r).isPos = true :=
        fun r hr => hpos r (List.mem_cons_of_mem q hr)
      simp only [List.foldl_cons] at hlt hfind ⊢
      rw [List.find?_cons] at hfind
      by_cases hp : parsedV q < acc.minP.toE
      · have hminm : min acc.minP.toE (parsedV q) = parsedV q := min_eq_right (le_of_lt hp)
        simp only [hminm] at hlt hfind ⊢
        have hltb : PyFloat.ltb (parsedOf q) acc.minP = true := by
          rw [ltb_toE h0 hmp]
          exact decide_eq_true hp
        have hacc' := statsStep_hit acc q h0 hltb
        have hle : rest.foldl (fun x r => min x (parsedV r)) (parsedV q) ≤ parsedV q :=
          foldMinV_le_init rest (parsedV q)
        by_cases hlt' : rest.foldl (fun x r => min x (parsedV r)) (parsedV q) < parsedV q
        · have hne : ¬ (parsedV q = rest.foldl (fun x r => min x (parsedV r)) (parsedV q)) :=
            fun h => absurd h.symm (ne_of_lt hlt')
          rw [decide_eq_false hne] at hfind
          rw [hacc']
          exact ih ⟨acc.valid ++ [parsedOf q], parsedOf q, q.1, q.2.urlStr⟩ w hposr h0
            hlt' hfind
        · have heq : rest.foldl (fun x r => min x (parsedV r)) (parsedV q) = parsedV q :=
            le_antisymm hle (not_lt.mp hlt')
          rw [heq] at hfind ⊢
          rw [decide_eq_true rfl] at hfind
          have hfind' : some q = some w := hfind
          have hw : w = q := (Option.some.inj hfind').symm
          rw [hw, hacc']
          have hgeall : ∀ r ∈ rest, parsedV q ≤ parsedV r := by
            intro r hr
            calc parsedV q = rest.foldl (fun x r => min x (parsedV r)) (parsedV q) := heq.symm
              _ ≤ parsedV r := foldMinV_le_mem rest (parsedV q) r hr
          have hstab := statsFold_min_stable rest
            ⟨acc.valid ++ [parsedOf q], parsedOf q, q.1, q.2.urlStr⟩ hposr h0 hgeall
          refine ⟨?_, ?_, hstab.2.1, hstab.2.2⟩
          · rw [hstab.1]
            rfl
          · rw [hstab.1]
            exact h0
      · have hminm : min acc.minP.toE (parsedV q) = acc.minP.toE :=
          min_eq_left (not_lt.mp hp)
        simp only [hminm] at hlt hfind ⊢
        have hltb : PyFloat.ltb (parsedOf q) acc.minP = false := by
          rw [ltb_toE h0 hmp]
          exact decide_eq_false hp
        have hacc' := statsStep_keep acc q h0 hltb
        have hne : ¬ (parsedV q =
            rest.foldl (fun x r => min x (parsedV r)) acc.minP.toE) := by
          intro h
          apply hp
          rw [h]
          exact hlt
        rw [decide_eq_false hne] at hfind
        rw [hacc']
        exact ih ⟨acc.valid ++ [parsedOf q], acc.minP, acc.minProduct, acc.minUrl⟩ w hposr
          hmp hlt hfind

lemma minParsed_fold_top :
    ∀ (Q : List (String × PriceInfo)), Q ≠ [] →
      Q.foldl (fun m r => min m (parsedV r)) ⊤ = minParsed Q := by
  intro Q hQ
  match Q, hQ with
  | q :: rest, _ =>
      rw [List.foldl_cons, min_eq_right le_top]
      rfl

lemma minParsed_le_mem :
    ∀ (Q : List (String × PriceInfo)) (q : String × PriceInfo), q ∈ Q →
      minParsed Q ≤ parsedV q := by
  intro Q q hq
  match Q, hq with
  | r :: rest, hq =>
      rcases List.mem_cons.mp hq with hh | hh
      · subst hh
        exact foldMinV_le_init rest (parsedV q)
      · exact foldMinV_le_mem rest (parsedV r) q hh

lemma minParsed_attained :
    ∀ (Q : List (String × PriceInfo)), Q ≠ [] →
      ∃ q ∈ Q, parsedV q = minParsed Q := by
  intro Q hQ
  match Q, hQ with
  | q :: rest, _ =>
      rcases foldMinV_mem_or rest (parsedV q) with h | ⟨r, hr, h⟩
      · exact ⟨q, List.mem_cons_self q rest, h.symm⟩
      · exact ⟨r, List.mem_cons_of_mem q hr, h.symm⟩

end EcommCrawler

namespace EcommCrawler

/-- C3 counterexample: a quote whose price reads `inf` qualifies
(`inf > 0`), yet the min-product/url fields stay empty, because
`inf < float('inf')` is false and the running-minimum sentinel is never
beaten — the claim's min-fields clause fails on the program. -/
theorem amazon_price_stats_counterexample :
    (parse_price_to_float "inf").isPos = true ∧
    (calculate_amazon_price_stats [("A", PriceInfo.newFmt "inf" "u")]
      "1.00").amazon_min_price_product = "" ∧
    ¬ ((calculate_amazon_price_stats [("A", PriceInfo.newFmt "inf" "u")]
      "1.00").amazon_min_price_product = "A") := by
  refine ⟨by decide, by decide, by decide⟩

/-- C3 (amended): quotes parsing non-positive (or `nan`) are excluded from
every aggregate; the average is the currency-formatted mean of the
qualifying parsed prices (all-`"N/A"` when none qualifies); when the
smallest qualifying parsed price is finite, the min fields come from the
first quote attaining it in insertion order; when every qualifying quote
parses to `inf`, the min price formats as `"$inf"` and the min
product/url fields stay empty (the `float('inf')` sentinel is never
strictly beaten). -/
theorem amazon_price_stats_spec (quotes : List (String × PriceInfo)) (ali : String) :
    (qualifyingQuotes quotes = [] → calculate_amazon_price_stats quotes ali = naStats ali) ∧
    (qualifyingQuotes quotes ≠ [] →
      (calculate_amazon_price_stats quotes ali).amazon_avg_price =
        formatPyCurrency (PyFloat.divNat
          (PyFloat.sumList ((qualifyingQuotes quotes).map parsedOf))
          (qualifyingQuotes quotes).length) ∧
      (minParsed (qualifyingQuotes quotes) = ⊤ →
        (calculate_amazon_price_stats quotes ali).amazon_min_price = "$inf" ∧
        (calculate_amazon_price_stats quotes ali).amazon_min_price_product = "" ∧
        (calculate_amazon_price_stats quotes ali).amazon_min_price_product_url = "") ∧
      (∀ c : ℚ, minParsed (qualifyingQuotes quotes) = (c : WithTop ℚ) →
        ∃ w, (qualifyingQuotes quotes).find?
            (fun q => decide (parsedV q = (c : WithTop ℚ))) = some w ∧
          (calculate_amazon_price_stats quotes ali).amazon_min_price = formatCurrency c ∧
          (calculate_amazon_price_stats quotes ali).amazon_min_price_product = w.1 ∧
          (calculate_amazon_price_stats quotes ali).amazon_min_price_product_url =
            w.2.urlStr)) := by
  constructor
  · intro hQ
    unfold calculate_amazon_price_stats
    split
    · rfl
    · dsimp only
      rw [fold_filter_stats quotes ⟨[], .inf, "", ""⟩, hQ]
      rfl
  · intro hQ
    have hpos : ∀ q ∈ qualifyingQuotes quotes, (parsedOf q).isPos = true := by
      intro q hq
      exact (List.mem_filter.mp hq).2
    have hvalid : (quotes.foldl statsStep ⟨[], .inf, "", ""⟩).valid =
        (qualifyingQuotes quotes).map parsedOf := by
      rw [fold_filter_stats quotes ⟨[], .inf, "", ""⟩,
        statsFold_valid (qualifyingQuotes quotes) ⟨[], .inf, "", ""⟩ hpos]
      rfl
    have hqe : quotes.isEmpty = false := by
      cases hq : quotes with
      | nil =>
          exfalso
          apply hQ
          rw [hq]
          rfl
      | cons a l => rfl
    have hve : (quotes.foldl statsStep ⟨[], .inf, "", ""⟩).valid.isEmpty = false := by
      rw [hvalid]
      cases hq : qualifyingQuotes quotes with
      | nil => exact absurd hq hQ
      | cons a l => rfl
    unfold calculate_amazon_price_stats
    rw [if_neg (show ¬ quotes.isEmpty = true by rw [hqe]; exact Bool.false_ne_true)]
    dsimp only
    rw [if_neg (show ¬ (quotes.foldl statsStep ⟨[], .inf, "", ""⟩).valid.isEmpty = true by
      rw [hve]; exact Bool.false_ne_true)]
    refine ⟨?_, ?_, ?_⟩
    · show formatPyCurrency (PyFloat.divNat
        (PyFloat.sumList (quotes.foldl statsStep ⟨[], .inf, "", ""⟩).valid)
        (quotes.foldl statsStep ⟨[], .inf, "", ""⟩).valid.length) = _
      rw [hvalid, List.length_map]
    · intro htop
      have hinf : ∀ q ∈ qualifyingQuotes quotes, parsedV q = ⊤ := by
        intro q hq
        exact top_le_iff.mp (htop ▸ minParsed_le_mem (qualifyingQuotes quotes) q hq)
      have hstab := statsFold_min_stable (qualifyingQuotes quotes) ⟨[], .inf, "", ""⟩
        hpos rfl (fun q hq => le_of_eq (hinf q hq).symm)
      rw [← fold_filter_stats quotes ⟨[], .inf, "", ""⟩] at hstab
      refine ⟨?_, ?_, ?_⟩
      · show formatPyCurrency (quotes.foldl statsStep ⟨[], .inf, "", ""⟩).minP = _
        rw [hstab.1]
        rfl
      · show (quotes.foldl statsStep ⟨[], .inf, "", ""⟩).minProduct = ""
        rw [hstab.2.1]
      · show (quotes.foldl statsStep ⟨[], .inf, "", ""⟩).minUrl = ""
        rw [hstab.2.2]
    · intro c hc
      have hfoldtop := minParsed_fold_top (qualifyingQuotes quotes) hQ
      have hlt : (qualifyingQuotes quotes).foldl (fun x r => min x (parsedV r)) ⊤ < ⊤ := by
        rw [hfoldtop, hc]
        exact WithTop.coe_lt_top c
      obtain ⟨r0, hr0, hr0v⟩ := minParsed_attained (qualifyingQuotes quotes) hQ
      have hfs : ((qualifyingQuotes quotes).find?
          (fun q => decide (parsedV q = (c : WithTop ℚ)))).isSome = true := by
        rw [List.find?_isSome]
        exact ⟨r0, hr0, decide_eq_true (by rw [hr0v, hc])⟩
      obtain ⟨w, hw⟩ := Option.isSome_iff_exists.mp hfs
      have hfind' : (qualifyingQuotes quotes).find? (fun q => decide (parsedV q =
          (qualifyingQuotes quotes).foldl (fun x r => min x (parsedV r)) ⊤)) = some w := by
        simp only [hfoldtop, hc]
        exact hw
      have hupd := statsFold_min_update (qualifyingQuotes quotes) ⟨[], .inf, "", ""⟩ w
        hpos rfl hlt hfind'
      rw [show (⟨[], PyFloat.inf, "", ""⟩ : StatsAcc).minP.toE = (⊤ : WithTop ℚ) from rfl,
        hfoldtop, hc, ← fold_filter_stats quotes ⟨[], .inf, "", ""⟩] at hupd
      obtain ⟨hminE, hminPos, hprod, hurl⟩ := hupd
      have hfin : (quotes.foldl statsStep ⟨[], .inf, "", ""⟩).minP = .finite c :=
        toE_finite_of_isPos hminPos hminE
      refine ⟨w, hw, ?_, ?_, ?_⟩
      · show formatPyCurrency (quotes.foldl statsStep ⟨[], .inf, "", ""⟩).minP =
          formatCurrency c
        rw [hfin]
        rfl
      · exact hprod
      · exact hurl

set_option maxRecDepth 8000 in
lemma parse_four : parse_price_to_float "$4.00" = .finite 4 := by
  have h : pyFloatPartsF (pyStrip (removeChars ['$', ','] ("$4.00").data)) =
      some (.num ⟨false, 400, 2, 0⟩) := by decide
  rw [parse_price_to_float, if_neg (by decide), pyFloatValF, h]
  dsimp only
  rw [if_neg (show ¬ overflowsF 400 2 0 = true by decide),
    if_neg (show ¬ underflowsF 400 2 0 = true by decide)]
  have hv : ratOfParts ⟨false, 400, 2, 0⟩ = 4 := by norm_num [ratOfParts]
  rw [hv]

set_option maxRecDepth 8000 in
lemma parse_two : parse_price_to_float "$2.00" = .finite 2 := by
  have h : pyFloatPartsF (pyStrip (removeChars ['$', ','] ("$2.00").data)) =
      some (.num ⟨false, 200, 2, 0⟩) := by decide
  rw [parse_price_to_float, if_neg (by decide), pyFloatValF, h]
  dsimp only
  rw [if_neg (show ¬ overflowsF 200 2 0 = true by decide),
    if_neg (show ¬ underflowsF 200 2 0 = true by decide)]
  have hv : ratOfParts ⟨false, 200, 2, 0⟩ = 2 := by norm_num [ratOfParts]
  rw [hv]

/-- Witness for C3 on the three-quote sample (`$4.00`, `$2.00`, `N/A`),
whose minimum qualifying parsed price is the finite `2`. -/
theorem amazon_price_stats_spec_witness :
    qualifyingQuotes sampleQuotes ≠ [] ∧
    minParsed (qualifyingQuotes sampleQuotes) = ((2 : ℚ) : WithTop ℚ) ∧
    ((calculate_amazon_price_stats sampleQuotes "1.00").amazon_avg_price =
        formatPyCurrency (PyFloat.divNat
          (PyFloat.sumList ((qualifyingQuotes sampleQuotes).map parsedOf))
          (qualifyingQuotes sampleQuotes).length) ∧
      ∃ w, (qualifyingQuotes sampleQuotes).find?
          (fun q => decide (parsedV q = ((2 : ℚ) : WithTop ℚ))) = some w ∧
        (calculate_amazon_price_stats sampleQuotes "1.00").amazon_min_price =
          formatCurrency 2 ∧
        (calculate_amazon_price_stats sampleQuotes "1.00").amazon_min_price_product = w.1 ∧
        (calculate_amazon_price_stats sampleQuotes "1.00").amazon_min_price_product_url =
          w.2.urlStr) := by
  have c1 : (parsedOf ("A", PriceInfo.newFmt "$4.00" "ua")).isPos = true := by
    rw [show parsedOf ("A", PriceInfo.newFmt "$4.00" "ua") =
      parse_price_to_float "$4.00" from rfl, parse_four]
    show decide ((0 : ℚ) < (4 : ℚ)) = true
    exact decide_eq_true (show (0 : ℚ) < 4 by norm_num)
  have c2 : (parsedOf ("B", PriceInfo.newFmt "$2.00" "ub")).isPos = true := by
    rw [show parsedOf ("B", PriceInfo.newFmt "$2.00" "ub") =
      parse_price_to_float "$2.00" from rfl, parse_two]
    show decide ((0 : ℚ) < (2 : ℚ)) = true
    exact decide_eq_true (show (0 : ℚ) < 2 by norm_num)
  have c3 : (parsedOf ("C", PriceInfo.newFmt "N/A" "uc")).isPos = false := by
    rw [show parsedOf ("C", PriceInfo.newFmt "N/A" "uc") =
      parse_price_to_float "N/A" from rfl,
      show parse_price_to_float "N/A" = .finite 0 from by
        rw [parse_price_to_float, if_pos (Or.inr rfl)]]
    show decide ((0 : ℚ) < (0 : ℚ)) = false
    exact decide_eq_false (lt_irrefl (0 : ℚ))
  have hQ : qualifyingQuotes sampleQuotes =
      [("A", PriceInfo.newFmt "$4.00" "ua"), ("B", PriceInfo.newFmt "$2.00" "ub")] := by
    unfold qualifyingQuotes sampleQuotes
    rw [List.filter_cons, List.filter_cons, List.filter_cons, c1, c2, c3]
    rfl
  have hne : qualifyingQuotes sampleQuotes ≠ [] := by
    rw [hQ]
    exact List.cons_ne_nil _ _
  have hmin : minParsed (qualifyingQuotes sampleQuotes) = ((2 : ℚ) : WithTop ℚ) := by
    rw [hQ]
    show List.foldl (fun m r => min m (parsedV r)) (parsedV ("A", PriceInfo.newFmt "$4.00" "ua"))
      [("B", PriceInfo.newFmt "$2.00" "ub")] = ((2 : ℚ) : WithTop ℚ)
    rw [List.foldl_cons, List.foldl_nil,
      show parsedV ("A", PriceInfo.newFmt "$4.00" "ua") = ((4 : ℚ) : WithTop ℚ) from by
        show (parse_price_to_float "$4.00").toE = ((4 : ℚ) : WithTop ℚ)
        rw [parse_four]; rfl,
      show parsedV ("B", PriceInfo.newFmt "$2.00" "ub") = ((2 : ℚ) : WithTop ℚ) from by
        show (parse_price_to_float "$2.00").toE = ((2 : ℚ) : WithTop ℚ)
        rw [parse_two]; rfl,
      ← WithTop.coe_min]
    exact WithTop.coe_inj.mpr (by norm_num)
  refine ⟨hne, hmin, ((amazon_price_stats_spec sampleQuotes "1.00").2 hne).1, ?_⟩
  exact ((amazon_price_stats_spec sampleQuotes "1.00").2 hne).2.2 2 hmin

end EcommCrawler
